import Mathlib

/-!
# Verification of the `trexp` change-tracking / tree-rewriting library

Shallow embedding of the Rust sources (`src/bind.rs`, `src/rewrite.rs`,
`src/tree.rs`) into Lean 4, together with proofs of the specified
properties.  Rust's `Result<T, E>` is embedded as `Except ε T`, and the
`Rewrite<T>` enum as an inductive with constructors `Clean` and `Dirty`.
-/

universe u v w

/-- Embedding of `enum Rewrite<T> { Clean(T), Dirty(T) }` from
`src/rewrite.rs`. -/
inductive Rewrite (T : Type u) where
  | Clean : T → Rewrite T
  | Dirty : T → Rewrite T
deriving DecidableEq, Repr

open Rewrite

/-- `Rewrite::is_clean`: `matches!(self, Clean(..))`. -/
def Rewrite.is_clean {T : Type u} : Rewrite T → Bool
  | Clean _ => true
  | Dirty _ => false

/-- `Rewrite::is_dirty`: `matches!(self, Dirty(..))`. -/
def Rewrite.is_dirty {T : Type u} : Rewrite T → Bool
  | Clean _ => false
  | Dirty _ => true

/-- `Rewrite::into_inner`: takes the contained value, forgetting the tag. -/
def Rewrite.into_inner {T : Type u} : Rewrite T → T
  | Clean t => t
  | Dirty t => t

/-- `Rewrite::map`: apply a function to the payload, retaining the tag. -/
def Rewrite.map {T : Type u} {U : Type v} (a : Rewrite T) (f : T → U) : Rewrite U :=
  match a with
  | Clean t => Clean (f t)
  | Dirty t => Dirty (f t)

/-- `Rewrite::bind`: applies `f` and makes the result `Dirty` if `self` was
already dirty or became dirty as a result of the function. -/
def Rewrite.bind {T : Type u} (a : Rewrite T) (f : T → Rewrite T) : Rewrite T :=
  match a with
  | Clean c => f c
  | Dirty d => Dirty (f d).into_inner

/-- `Rewrite::try_bind`: the fallible version of `bind`; `f t?` propagates an
error before re-tagging. -/
def Rewrite.try_bind {T : Type u} {ε : Type v} (a : Rewrite T)
    (f : T → Except ε (Rewrite T)) : Except ε (Rewrite T) :=
  match a with
  | Clean t => f t
  | Dirty t =>
    match f t with
    | Except.error e => Except.error e
    | Except.ok r => Except.ok (Dirty r.into_inner)

/-- `Rewrite::<Rewrite<T>>::transpose`: swaps two layers of `Rewrite`. -/
def Rewrite.transpose {T : Type u} : Rewrite (Rewrite T) → Rewrite (Rewrite T)
  | Clean inner => inner.map Clean
  | Dirty inner => inner.map Dirty

/-- `Rewrite::<Result<T, E>>::transpose_result`: converts
`Rewrite<Result<T, E>>` into `Result<Rewrite<T>, E>`; the `?` inside each arm
propagates the error. -/
def Rewrite.transpose_result {T : Type u} {ε : Type v} :
    Rewrite (Except ε T) → Except ε (Rewrite T)
  | Clean (Except.ok t) => Except.ok (Clean t)
  | Clean (Except.error e) => Except.error e
  | Dirty (Except.ok t) => Except.ok (Dirty t)
  | Dirty (Except.error e) => Except.error e

/-- The `FromIterator<Rewrite<T>> for Rewrite<C>` instance of
`src/rewrite.rs`, specialised to sequences as Lean lists: one pass records
whether any element is dirty (`inspect`) while collecting the payloads
(`map(Rewrite::into_inner).collect()`), then tags the collection. -/
def fromIterRewrite {T : Type u} (l : List (Rewrite T)) : Rewrite (List T) :=
  let dirtyAcc := l.foldl (fun acc item => acc || item.is_dirty) false
  let collected := l.map Rewrite.into_inner
  if dirtyAcc then Dirty collected else Clean collected

/-- The identity `Bind<Self> for T` instance of `src/bind.rs`: binding just
applies the function directly. -/
def bindId {T : Type u} (wrapped : T) (f : T → T) : T :=
  f wrapped

/-- The `Bind<Result<Self, E>> for T` instance of `src/bind.rs`:
`wrapped.and_then(f)`. -/
def bindResult {T : Type u} {ε : Type v} (wrapped : Except ε T)
    (f : T → Except ε T) : Except ε T :=
  match wrapped with
  | Except.error e => Except.error e
  | Except.ok t => f t

/-- The `Bind<Rewrite<Self>> for T` instance of `src/rewrite.rs`:
`wrapped.bind(f)`. -/
def bindRewrite {T : Type u} (wrapped : Rewrite T) (f : T → Rewrite T) :
    Rewrite T :=
  wrapped.bind f

/-- The `Bind<Result<Rewrite<Self>, E>> for T` instance of `src/bind.rs`:
`wrapped?.try_bind(f)`. -/
def bindResultRewrite {T : Type u} {ε : Type v}
    (wrapped : Except ε (Rewrite T)) (f : T → Except ε (Rewrite T)) :
    Except ε (Rewrite T) :=
  match wrapped with
  | Except.error e => Except.error e
  | Except.ok rw => rw.try_bind f

/-- Big-step semantics of the loop in `Rewrite::repeat`
(`src/rewrite.rs`): from loop state `val`, `val.map(&mut f).transpose()` is
matched; `Clean(done)` breaks with `done`, `Dirty(keep_going)` continues from
`Dirty(keep_going.into_inner())`.  `RepeatRel f val r` holds iff the loop
started at state `val` terminates with result `r`. -/
inductive RepeatRel {T : Type u} (f : T → Rewrite T) :
    Rewrite T → Rewrite T → Prop where
  | stop : ∀ val done, (val.map f).transpose = Clean done →
      RepeatRel f val done
  | step : ∀ val kg out, (val.map f).transpose = Dirty kg →
      RepeatRel f (Dirty kg.into_inner) out → RepeatRel f val out

/-- Big-step semantics of the loop in `Rewrite::try_repeat`
(`src/rewrite.rs`): `val.map(&mut f).transpose_result()?` propagates an error
out of the whole loop; otherwise `.transpose()` is matched exactly as in
`repeat`. -/
inductive TryRepeatRel {T : Type u} {ε : Type v}
    (f : T → Except ε (Rewrite T)) :
    Rewrite T → Except ε (Rewrite T) → Prop where
  | fail : ∀ val e, (val.map f).transpose_result = Except.error e →
      TryRepeatRel f val (Except.error e)
  | stop : ∀ val rr done, (val.map f).transpose_result = Except.ok rr →
      rr.transpose = Clean done → TryRepeatRel f val (Except.ok done)
  | step : ∀ val rr kg out, (val.map f).transpose_result = Except.ok rr →
      rr.transpose = Dirty kg → TryRepeatRel f (Dirty kg.into_inner) out →
      TryRepeatRel f val out

/-- The sequence of payloads fed to `f` by the `repeat` loop: iteration `n`
applies `f` to `payloadIter f a n`, and on `Dirty` the loop continues from the
returned payload. -/
def payloadIter {T : Type u} (f : T → Rewrite T) : T → Nat → T
  | a, 0 => a
  | a, n + 1 => payloadIter f (f a).into_inner n

/-- The payload the `try_repeat` loop continues from after one successful
iteration at payload `a` (on error the loop aborts, so the value is moot). -/
def tryStepPayload {T : Type u} {ε : Type v} (f : T → Except ε (Rewrite T))
    (a : T) : T :=
  match f a with
  | Except.ok r => r.into_inner
  | Except.error _ => a

/-- The sequence of payloads fed to `f` by the `try_repeat` loop. -/
def tryPayloadIter {T : Type u} {ε : Type v} (f : T → Except ε (Rewrite T)) :
    T → Nat → T
  | a, 0 => a
  | a, n + 1 => tryPayloadIter f (tryStepPayload f a) n

/-- The doc example of `Rewrite::repeat`: halves an even number
(reporting `Dirty`), leaves an odd number alone (reporting `Clean`). -/
def halve_even (n : Int) : Rewrite Int :=
  if n % 2 == 0 then Dirty (n / 2) else Clean n

/-- Modelled from the spec: a concrete recursive tree node for the
`TreeWalk` trait of `src/tree.rs` — the crate itself defines no concrete
node type; §3 of the spec requires only "a node that knows how to transform
its own immediate children", with any branching factor, children of the
same node type. -/
inductive RTree (α : Type u) where
  | node : α → List (RTree α) → RTree α

mutual

/-- Modelled from the spec: the child-rewrite hook for `RTree` under the
failable effect (`FS = Result<RTree, E>`), combined with
`TreeWalk::bottom_up`'s helper `go` from `src/tree.rs` and the
`Bind<Result<Self, E>>` instance (`and_then`) from `src/bind.rs`.
The caller's `FnMut` transform is embedded as an explicit
state-threading function `fs : RTree α → σ → Except ε (RTree α) × σ`, so that
its closure state (`σ`) records, e.g., which nodes it was applied to.
`goE` is `go`: first `each_branch` applies `go` to each immediate child in
declared (left-to-right) order, short-circuiting on the first error while
reassembling the node; then `Bind::bind_mut(rest_transformed, f)` applies
`fs` only on success. -/
def goE {α : Type u} {ε : Type v} {σ : Type w} (fs : RTree α → σ → Except ε (RTree α) × σ) :
    RTree α → σ → Except ε (RTree α) × σ
  | RTree.node lbl cs, s =>
    match goEList fs cs s with
    | (Except.error e, s1) => (Except.error e, s1)
    | (Except.ok cs1, s1) => fs (RTree.node lbl cs1) s1

/-- The child-by-child part of `goE`: applies `goE` to each child in order,
stopping at the first error (the `collect::<Result<_, _>>`-style
short-circuit of the modelled hook). -/
def goEList {α : Type u} {ε : Type v} {σ : Type w}
    (fs : RTree α → σ → Except ε (RTree α) × σ) :
    List (RTree α) → σ → Except ε (List (RTree α)) × σ
  | [], s => (Except.ok [], s)
  | c :: cs, s =>
    match goE fs c s with
    | (Except.error e, s1) => (Except.error e, s1)
    | (Except.ok c1, s1) =>
      match goEList fs cs s1 with
      | (Except.error e, s2) => (Except.error e, s2)
      | (Except.ok cs1, s2) => (Except.ok (c1 :: cs1), s2)

end


mutual

/-- Modelled from the spec: the same `bottom_up` helper `go` for `RTree`
under the identity effect (`FS = Self`), whose `Bind` instance in
`src/bind.rs` applies the function directly; the caller's `FnMut` transform
is again embedded with explicit closure state. -/
def goId {α : Type u} {σ : Type w} (fs : RTree α → σ → RTree α × σ) :
    RTree α → σ → RTree α × σ
  | RTree.node lbl cs, s =>
    match goIdList fs cs s with
    | (cs1, s1) => fs (RTree.node lbl cs1) s1

/-- The child-by-child part of `goId`: applies `goId` to each child in
declared (left-to-right) order, reassembling the child list. -/
def goIdList {α : Type u} {σ : Type w} (fs : RTree α → σ → RTree α × σ) :
    List (RTree α) → σ → List (RTree α) × σ
  | [], s => ([], s)
  | c :: cs, s =>
    match goId fs c s with
    | (c1, s1) =>
      match goIdList fs cs s1 with
      | (cs1, s2) => (c1 :: cs1, s2)

end

mutual

/-- Specification-level recursion for `bottom_up` with a pure transform `g`:
the result is `g` applied to the node whose children have each been fully
bottom-up transformed. -/
def buSpec {α : Type u} (g : RTree α → RTree α) : RTree α → RTree α
  | RTree.node lbl cs => g (RTree.node lbl (buSpecList g cs))

/-- `buSpec` mapped over a list of children, in order. -/
def buSpecList {α : Type u} (g : RTree α → RTree α) :
    List (RTree α) → List (RTree α)
  | [] => []
  | c :: cs => buSpec g c :: buSpecList g cs

end

mutual

/-- The post-order sequence of arguments passed to the transform during
`bottom_up` with pure transform `g`: all visits inside the children (in
declared order) first, then exactly one visit of the root, whose children
are already fully transformed. -/
def postVisits {α : Type u} (g : RTree α → RTree α) : RTree α → List (RTree α)
  | RTree.node lbl cs =>
    postVisitsList g cs ++ [RTree.node lbl (buSpecList g cs)]

/-- `postVisits` concatenated over a list of children, in order. -/
def postVisitsList {α : Type u} (g : RTree α → RTree α) :
    List (RTree α) → List (RTree α)
  | [] => []
  | c :: cs => postVisits g c ++ postVisitsList g cs

end

/-- Simultaneous induction principle for the nested inductive `RTree` and
lists of `RTree`s. -/
theorem rtree_list_ind {α : Type u} {P : RTree α → Prop}
    {Q : List (RTree α) → Prop}
    (hnode : ∀ l cs, Q cs → P (RTree.node l cs))
    (hnil : Q [])
    (hcons : ∀ c cs, P c → Q cs → Q (c :: cs)) :
    (∀ t, P t) ∧ (∀ l, Q l) :=
  ⟨fun t => RTree.rec hnode hnil hcons t,
   fun l => List.rec hnil (fun c cs ih =>
     hcons c cs (RTree.rec hnode hnil hcons c) ih) l⟩

@[simp]
theorem is_dirty_Clean {T : Type u} (t : T) : (Clean t).is_dirty = false := rfl

@[simp]
theorem is_dirty_Dirty {T : Type u} (t : T) : (Dirty t).is_dirty = true := rfl

@[simp]
theorem is_clean_Clean {T : Type u} (t : T) : (Clean t).is_clean = true := rfl

@[simp]
theorem is_clean_Dirty {T : Type u} (t : T) : (Dirty t).is_clean = false := rfl

@[simp]
theorem into_inner_Clean {T : Type u} (t : T) : (Clean t).into_inner = t := rfl

@[simp]
theorem into_inner_Dirty {T : Type u} (t : T) : (Dirty t).into_inner = t := rfl

theorem foldl_or_is_dirty {T : Type u} (l : List (Rewrite T)) (acc : Bool) :
    l.foldl (fun a item => a || item.is_dirty) acc =
      (acc || l.any Rewrite.is_dirty) := by
  induction l generalizing acc with
  | nil => simp
  | cons x xs ih => simp [List.foldl_cons, ih, Bool.or_assoc]

/-- C1: tag stickiness of `Rewrite::bind` — a `Dirty` input forces a `Dirty`
result whatever `f` returns; a `Clean` input takes the tag of `f`'s result;
and the payload is always the payload of `f` applied to the input's
payload. -/
theorem trexp_c1_bind_tag_stickiness {T : Type u} (a : Rewrite T)
    (f : T → Rewrite T) :
    (a.is_dirty = true → (a.bind f).is_dirty = true) ∧
    (a.is_clean = true → (a.bind f).is_dirty = (f a.into_inner).is_dirty) ∧
    (a.bind f).into_inner = (f a.into_inner).into_inner := by
  cases a with
  | Clean t => simp [Rewrite.bind, Rewrite.is_dirty, Rewrite.into_inner]
  | Dirty t =>
    cases h : f t <;> simp [Rewrite.bind, h]

theorem trexp_c1_witness :
    ((Dirty (0 : Nat)).bind fun n => Clean (n + 1)).is_dirty = true :=
  (trexp_c1_bind_tag_stickiness (Dirty 0) fun n => Clean (n + 1)).1 rfl

/-- C7: `transpose` on a doubly-wrapped `Rewrite` is an involution, and it
swaps the two tags while leaving the payload untouched. -/
theorem trexp_c7_transpose_involution {T : Type u} (v : Rewrite (Rewrite T))
    (x : T) :
    v.transpose.transpose = v ∧
    (Clean (Dirty x)).transpose = Dirty (Clean x) ∧
    (Dirty (Clean x)).transpose = Clean (Dirty x) := by
  refine ⟨?_, rfl, rfl⟩
  cases v with
  | Clean inner => cases inner <;> rfl
  | Dirty inner => cases inner <;> rfl

/-- C2: the failable `Bind` instance propagates an error unchanged without
consulting `step` (the result is the same for every `step`), and otherwise
returns `step`'s result directly; the combined failable-and-tracked instance
propagates an error in `wrapped` immediately, applies the OR rule on
success, and propagates a failure returned by `step`. -/
theorem trexp_c2_sequence_instances {T : Type u} {ε : Type v} :
    (∀ (e : ε) (f : T → Except ε T),
      bindResult (Except.error e) f = Except.error e) ∧
    (∀ (x : T) (f : T → Except ε T), bindResult (Except.ok x) f = f x) ∧
    (∀ (e : ε) (f : T → Except ε (Rewrite T)),
      bindResultRewrite (Except.error e) f = Except.error e) ∧
    (∀ (rw : Rewrite T) (f : T → Except ε (Rewrite T)) (r : Rewrite T),
      f rw.into_inner = Except.ok r →
      bindResultRewrite (Except.ok rw) f =
        Except.ok (if rw.is_dirty || r.is_dirty then Dirty r.into_inner
          else Clean r.into_inner)) ∧
    (∀ (rw : Rewrite T) (f : T → Except ε (Rewrite T)) (e : ε),
      f rw.into_inner = Except.error e →
      bindResultRewrite (Except.ok rw) f = Except.error e) := by
  refine ⟨fun e f => rfl, fun x f => rfl, fun e f => rfl, ?_, ?_⟩
  · intro rw f r h
    cases rw with
    | Clean t =>
      cases r <;>
        simp_all [bindResultRewrite, Rewrite.try_bind, Rewrite.into_inner,
          Rewrite.is_dirty]
    | Dirty t =>
      cases r <;>
        simp_all [bindResultRewrite, Rewrite.try_bind, Rewrite.into_inner,
          Rewrite.is_dirty]
  · intro rw f e h
    cases rw <;>
      simp_all [bindResultRewrite, Rewrite.try_bind, Rewrite.into_inner]

theorem trexp_c2_witness :
    bindResultRewrite (Except.ok (Dirty (0 : Nat)))
      (fun n => (Except.ok (Clean n) : Except Nat (Rewrite Nat))) =
      Except.ok (Dirty 0) := by
  have h := (@trexp_c2_sequence_instances Nat Nat).2.2.2.1 (Dirty 0)
    (fun n => Except.ok (Clean n)) (Clean 0) rfl
  simpa using h

/-- C6: collecting a list of tracked values is `Dirty` iff some element is
`Dirty`; the payloads are the elements' payloads in order; and an
all-`Clean` list collects to `Clean` with the same payloads in the same
order. -/
theorem trexp_c6_collection_convergence {T : Type u} (l : List (Rewrite T)) :
    ((fromIterRewrite l).is_dirty = true ↔ ∃ x ∈ l, x.is_dirty = true) ∧
    (fromIterRewrite l).into_inner = l.map Rewrite.into_inner ∧
    ((∀ x ∈ l, x.is_clean = true) →
      fromIterRewrite l = Clean (l.map Rewrite.into_inner)) := by
  have hfold := foldl_or_is_dirty l false
  refine ⟨?_, ?_, ?_⟩
  · unfold fromIterRewrite
    rw [hfold]
    simp only [Bool.false_or]
    cases h : l.any Rewrite.is_dirty with
    | true =>
      simp only [if_true, is_dirty_Dirty, true_iff]
      exact List.any_eq_true.mp h
    | false =>
      simp only [Bool.false_eq_true, if_false, is_dirty_Clean, false_iff]
      intro hex
      have := List.any_eq_true.mpr hex
      rw [h] at this
      cases this
  · unfold fromIterRewrite
    cases l.foldl (fun a item => a || item.is_dirty) false <;>
      simp [Rewrite.into_inner]
  · intro hall
    unfold fromIterRewrite
    rw [hfold]
    have : l.any Rewrite.is_dirty = false := by
      rw [List.any_eq_false]
      intro x hx
      have := hall x hx
      cases x with
      | Clean t => simp [Rewrite.is_dirty]
      | Dirty t => simp [Rewrite.is_clean] at this
    simp [this]

theorem trexp_c6_witness :
    fromIterRewrite [Clean (1 : Nat), Clean 2] = Clean [1, 2] :=
  (trexp_c6_collection_convergence [Clean 1, Clean 2]).2.2 (by decide)

theorem into_inner_map {T : Type u} {U : Type v} (val : Rewrite T)
    (g : T → U) : (val.map g).into_inner = g val.into_inner := by
  cases val <;> rfl

theorem map_transpose_clean_iff {T : Type u} {f : T → Rewrite T}
    {val done : Rewrite T} :
    (val.map f).transpose = Clean done ↔
      ∃ y, f val.into_inner = Clean y ∧ done = val.map fun _ => y := by
  cases val with
  | Clean a =>
    cases hfa : f a <;>
      simp_all [Rewrite.map, Rewrite.transpose, eq_comm]
  | Dirty a =>
    cases hfa : f a <;>
      simp_all [Rewrite.map, Rewrite.transpose, eq_comm]

theorem map_transpose_dirty_iff {T : Type u} {f : T → Rewrite T}
    {val kg : Rewrite T} :
    (val.map f).transpose = Dirty kg ↔
      ∃ y, f val.into_inner = Dirty y ∧ kg = val.map fun _ => y := by
  cases val with
  | Clean a =>
    cases hfa : f a <;>
      simp_all [Rewrite.map, Rewrite.transpose, eq_comm]
  | Dirty a =>
    cases hfa : f a <;>
      simp_all [Rewrite.map, Rewrite.transpose, eq_comm]

theorem repeatRel_det {T : Type u} {f : T → Rewrite T} {val r1 r2 : Rewrite T}
    (h1 : RepeatRel f val r1) (h2 : RepeatRel f val r2) : r1 = r2 := by
  induction h1 generalizing r2 with
  | stop val done heq =>
    cases h2 with
    | stop _ done2 heq2 => exact Rewrite.Clean.inj (heq.symm.trans heq2)
    | step _ kg2 out2 heq2 h2rec => cases heq.symm.trans heq2
  | step val kg out heq hrec ih =>
    cases h2 with
    | stop _ done2 heq2 => cases heq.symm.trans heq2
    | step _ kg2 out2 heq2 h2rec =>
      cases Rewrite.Dirty.inj (heq.symm.trans heq2)
      exact ih h2rec

theorem repeatRel_to_clean_iter {T : Type u} {f : T → Rewrite T}
    {val r : Rewrite T} (h : RepeatRel f val r) :
    ∃ n, (f (payloadIter f val.into_inner n)).is_clean = true := by
  induction h with
  | stop val done heq =>
    obtain ⟨y, hfa, -⟩ := map_transpose_clean_iff.mp heq
    exact ⟨0, by simp [payloadIter, hfa]⟩
  | step val kg out heq hrec ih =>
    obtain ⟨y, hfa, hkg⟩ := map_transpose_dirty_iff.mp heq
    obtain ⟨n, hn⟩ := ih
    refine ⟨n + 1, ?_⟩
    have hky : kg.into_inner = y := by rw [hkg, into_inner_map]
    rw [into_inner_Dirty, hky] at hn
    simpa [payloadIter, hfa] using hn

theorem clean_iter_to_repeatRel {T : Type u} {f : T → Rewrite T} :
    ∀ (n : Nat) (val : Rewrite T),
      (f (payloadIter f val.into_inner n)).is_clean = true →
      ∃ r, RepeatRel f val r := by
  intro n
  induction n with
  | zero =>
    intro val h
    cases hfa : f val.into_inner with
    | Clean y =>
      exact ⟨_, RepeatRel.stop _ _ (map_transpose_clean_iff.mpr ⟨y, hfa, rfl⟩)⟩
    | Dirty y => rw [payloadIter, hfa] at h; cases h
  | succ n ih =>
    intro val h
    cases hfa : f val.into_inner with
    | Clean y =>
      exact ⟨_, RepeatRel.stop _ _ (map_transpose_clean_iff.mpr ⟨y, hfa, rfl⟩)⟩
    | Dirty y =>
      have hnext :
          (f (payloadIter f
            ((Dirty (val.map fun _ => y).into_inner) :
              Rewrite T).into_inner n)).is_clean = true := by
        rw [into_inner_Dirty, into_inner_map]
        rw [payloadIter, hfa] at h
        exact h
      obtain ⟨r, hr⟩ := ih (Dirty (val.map fun _ => y).into_inner) hnext
      exact ⟨r, RepeatRel.step _ _ _
        (map_transpose_dirty_iff.mpr ⟨y, hfa, rfl⟩) hr⟩

/-- C3: the doc examples of `Rewrite::repeat` with `halve_even`: starting
from 10 the loop terminates with exactly `Dirty 5`, from 24 with exactly
`Dirty 3`, and from 7 with exactly `Clean 7`. -/
theorem trexp_c3_fixpoint_examples :
    (∀ r, RepeatRel halve_even (Clean 10) r ↔ r = Dirty 5) ∧
    (∀ r, RepeatRel halve_even (Clean 24) r ↔ r = Dirty 3) ∧
    (∀ r, RepeatRel halve_even (Clean 7) r ↔ r = Clean 7) := by
  have h10 : RepeatRel halve_even (Clean 10) (Dirty 5) :=
    RepeatRel.step _ (Clean 5) _ (by decide)
      (RepeatRel.stop _ _ (by decide))
  have h24 : RepeatRel halve_even (Clean 24) (Dirty 3) :=
    RepeatRel.step _ (Clean 12) _ (by decide)
      (RepeatRel.step _ (Dirty 6) _ (by decide)
        (RepeatRel.step _ (Dirty 3) _ (by decide)
          (RepeatRel.stop _ _ (by decide))))
  have h7 : RepeatRel halve_even (Clean 7) (Clean 7) :=
    RepeatRel.stop _ _ (by decide)
  exact ⟨fun r => ⟨fun h => repeatRel_det h h10, fun h => h ▸ h10⟩,
    fun r => ⟨fun h => repeatRel_det h h24, fun h => h ▸ h24⟩,
    fun r => ⟨fun h => repeatRel_det h h7, fun h => h ▸ h7⟩⟩

theorem trexp_c3_witness : RepeatRel halve_even (Clean 10) (Dirty 5) :=
  (trexp_c3_fixpoint_examples.1 (Dirty 5)).mpr rfl

/-- C4: the `repeat` loop terminates (the big-step relation is inhabited)
iff some iteration's application of `f` reports `Clean`; an `f` that
reports `Dirty` on every input makes the loop diverge — there is no
iteration cap. -/
theorem trexp_c4_repeat_termination {T : Type u} (f : T → Rewrite T)
    (a : T) :
    ((∃ r, RepeatRel f (Clean a) r) ↔
      ∃ n, (f (payloadIter f a n)).is_clean = true) ∧
    ((∀ x, (f x).is_dirty = true) → ¬∃ r, RepeatRel f (Clean a) r) := by
  have hiff : (∃ r, RepeatRel f (Clean a) r) ↔
      ∃ n, (f (payloadIter f a n)).is_clean = true := by
    constructor
    · rintro ⟨r, hr⟩
      simpa using repeatRel_to_clean_iter hr
    · rintro ⟨n, hn⟩
      exact clean_iter_to_repeatRel n (Clean a) (by simpa using hn)
  refine ⟨hiff, fun hd hex => ?_⟩
  obtain ⟨n, hn⟩ := hiff.mp hex
  have := hd (payloadIter f a n)
  cases hfa : f (payloadIter f a n) <;> rw [hfa] at hn this <;> simp_all

theorem trexp_c4_witness :
    ¬∃ r, RepeatRel (fun x : Nat => Dirty x) (Clean 0) r :=
  (trexp_c4_repeat_termination (fun x : Nat => Dirty x) 0).2 fun _ => rfl

theorem repeatRel_final_clean {T : Type u} {f : T → Rewrite T}
    {val r : Rewrite T} (hr : RepeatRel f val r) :
    ∃ x y, f x = Clean y ∧ r.into_inner = y := by
  induction hr with
  | stop val done heq =>
    obtain ⟨y, hfa, hdone⟩ := map_transpose_clean_iff.mp heq
    exact ⟨val.into_inner, y, hfa, by rw [hdone, into_inner_map]⟩
  | step val kg out heq hrec ih => exact ih

/-- C10: whenever the `repeat` loop terminates, its result's payload is the
payload returned by the final application of `f` (the one that reported
`Clean`), not the payload that was fed into it; concretely, a transform
that always returns `Clean 42` makes `repeat` starting from `0` return
exactly `Clean 42`. -/
theorem trexp_c10_repeat_final_payload :
    (∀ (T : Type u) (f : T → Rewrite T) (a : T) (r : Rewrite T),
      RepeatRel f (Clean a) r →
        ∃ x y, f x = Clean y ∧ r.into_inner = y) ∧
    (∀ r, RepeatRel (fun _ : Nat => Clean 42) (Clean 0) r ↔
      r = Clean 42) := by
  constructor
  · intro T f a r hr
    exact repeatRel_final_clean hr
  · have h : RepeatRel (fun _ : Nat => Clean 42) (Clean 0) (Clean 42) :=
      RepeatRel.stop _ _ (by decide)
    exact fun r => ⟨fun hr => repeatRel_det hr h, fun hr => hr ▸ h⟩

theorem trexp_c10_witness :
    ∃ x y, (fun _ : Nat => Clean 42) x = Clean y ∧
      (Clean 42 : Rewrite Nat).into_inner = y :=
  trexp_c10_repeat_final_payload.1 Nat (fun _ => Clean 42) 0 (Clean 42)
    (RepeatRel.stop _ _ (by decide))

theorem map_transpose_result_error_iff {T : Type u} {ε : Type v}
    {f : T → Except ε (Rewrite T)} {val : Rewrite T} {e : ε} :
    (val.map f).transpose_result = Except.error e ↔
      f val.into_inner = Except.error e := by
  cases val with
  | Clean a =>
    cases hfa : f a <;> simp_all [Rewrite.map, Rewrite.transpose_result]
  | Dirty a =>
    cases hfa : f a <;> simp_all [Rewrite.map, Rewrite.transpose_result]

theorem map_transpose_result_ok_iff {T : Type u} {ε : Type v}
    {f : T → Except ε (Rewrite T)} {val : Rewrite T}
    {rr : Rewrite (Rewrite T)} :
    (val.map f).transpose_result = Except.ok rr ↔
      ∃ r0, f val.into_inner = Except.ok r0 ∧ rr = val.map fun _ => r0 := by
  cases val with
  | Clean a =>
    cases hfa : f a <;>
      simp_all [Rewrite.map, Rewrite.transpose_result, eq_comm]
  | Dirty a =>
    cases hfa : f a <;>
      simp_all [Rewrite.map, Rewrite.transpose_result, eq_comm]

theorem tryRepeatRel_det {T : Type u} {ε : Type v}
    {f : T → Except ε (Rewrite T)} {val : Rewrite T}
    {o1 o2 : Except ε (Rewrite T)} (h1 : TryRepeatRel f val o1)
    (h2 : TryRepeatRel f val o2) : o1 = o2 := by
  induction h1 generalizing o2 with
  | fail val e heq =>
    cases h2 with
    | fail _ e2 heq2 =>
      cases Except.error.inj (heq.symm.trans heq2)
      rfl
    | stop _ rr2 done2 heq2 htr2 => cases heq.symm.trans heq2
    | step _ rr2 kg2 out2 heq2 htr2 h2rec => cases heq.symm.trans heq2
  | stop val rr done heq htr =>
    cases h2 with
    | fail _ e2 heq2 => cases heq.symm.trans heq2
    | stop _ rr2 done2 heq2 htr2 =>
      cases Except.ok.inj (heq.symm.trans heq2)
      exact congrArg Except.ok (Rewrite.Clean.inj (htr.symm.trans htr2))
    | step _ rr2 kg2 out2 heq2 htr2 h2rec =>
      cases Except.ok.inj (heq.symm.trans heq2)
      cases htr.symm.trans htr2
  | step val rr kg out heq htr hrec ih =>
    cases h2 with
    | fail _ e2 heq2 => cases heq.symm.trans heq2
    | stop _ rr2 done2 heq2 htr2 =>
      cases Except.ok.inj (heq.symm.trans heq2)
      cases htr.symm.trans htr2
    | step _ rr2 kg2 out2 heq2 htr2 h2rec =>
      cases Except.ok.inj (heq.symm.trans heq2)
      cases Rewrite.Dirty.inj (htr.symm.trans htr2)
      exact ih h2rec

theorem tryRepeat_reaches_error {T : Type u} {ε : Type v}
    {f : T → Except ε (Rewrite T)} {e : ε} :
    ∀ (k : Nat) (val : Rewrite T),
      (∀ i, i < k →
        ∃ y, f (tryPayloadIter f val.into_inner i) = Except.ok (Dirty y)) →
      f (tryPayloadIter f val.into_inner k) = Except.error e →
      TryRepeatRel f val (Except.error e) := by
  intro k
  induction k with
  | zero =>
    intro val hsteps herr
    rw [tryPayloadIter] at herr
    exact TryRepeatRel.fail _ _ (map_transpose_result_error_iff.mpr herr)
  | succ k ih =>
    intro val hsteps herr
    obtain ⟨y, hy⟩ := hsteps 0 (Nat.succ_pos k)
    rw [tryPayloadIter] at hy
    have hok : (val.map f).transpose_result =
        Except.ok (val.map fun _ => Dirty y) :=
      map_transpose_result_ok_iff.mpr ⟨Dirty y, hy, rfl⟩
    have htr : (val.map fun _ => Dirty y).transpose =
        Dirty (val.map fun _ => y) :=
      map_transpose_dirty_iff.mpr ⟨y, rfl, rfl⟩
    have hshift : ∀ j, tryPayloadIter f val.into_inner (j + 1) =
        tryPayloadIter f y j := by
      intro j
      rw [tryPayloadIter]
      have : tryStepPayload f val.into_inner = y := by
        unfold tryStepPayload
        rw [hy]
        rfl
      rw [this]
    refine TryRepeatRel.step _ _ _ _ hok htr ?_
    have hval' : ((Dirty (val.map fun _ => y).into_inner :
        Rewrite T)).into_inner = y := by
      rw [into_inner_Dirty, into_inner_map]
    apply ih
    · intro i hi
      rw [hval']
      rw [← hshift i]
      exact hsteps (i + 1) (Nat.succ_lt_succ hi)
    · rw [hval', ← hshift k]
      exact herr

/-- C5: if every iteration of `try_repeat` before step `k` succeeds with a
`Dirty` result and the application of `f` at step `k` fails with `e`, the
loop's unique outcome is exactly `Except.error e` — the failure is
propagated immediately, no later payload is fed to `f`, and all partial
progress (including the accumulated `Dirty` tag) is discarded, the error
carrying no tag. -/
theorem trexp_c5_try_repeat_failure {T : Type u} {ε : Type v}
    (f : T → Except ε (Rewrite T)) (a : T) (e : ε) (k : Nat)
    (hsteps : ∀ i, i < k →
      ∃ y, f (tryPayloadIter f a i) = Except.ok (Dirty y))
    (herr : f (tryPayloadIter f a k) = Except.error e) :
    TryRepeatRel f (Clean a) (Except.error e) ∧
    ∀ out, TryRepeatRel f (Clean a) out → out = Except.error e := by
  have h : TryRepeatRel f (Clean a) (Except.error e) :=
    tryRepeat_reaches_error k (Clean a) hsteps herr
  exact ⟨h, fun out hout => tryRepeatRel_det hout h⟩

theorem trexp_c5_witness :
    TryRepeatRel
      (fun n : Nat => if n = 0 then Except.ok (Dirty 1)
        else (Except.error 7 : Except Nat (Rewrite Nat)))
      (Clean 0) (Except.error 7) :=
  (trexp_c5_try_repeat_failure _ 0 7 1
    (fun i hi => by
      have h0 : i = 0 := Nat.lt_one_iff.mp hi
      subst h0
      exact ⟨1, rfl⟩)
    rfl).1

theorem goEList_cons_error {α : Type u} {ε : Type v} {σ : Type w}
    {fs : RTree α → σ → Except ε (RTree α) × σ} {c : RTree α}
    {cs : List (RTree α)} {s s2 : σ} {e : ε}
    (hc : goE fs c s = (Except.error e, s2)) :
    goEList fs (c :: cs) s = (Except.error e, s2) := by
  rw [goEList, hc]

theorem goEList_append_ok_error {α : Type u} {ε : Type v} {σ : Type w}
    {fs : RTree α → σ → Except ε (RTree α) × σ} :
    ∀ {cs1 : List (RTree α)} {rest : List (RTree α)} {s s1 s2 : σ}
      {l1 : List (RTree α)} {e : ε},
      goEList fs cs1 s = (Except.ok l1, s1) →
      goEList fs rest s1 = (Except.error e, s2) →
      goEList fs (cs1 ++ rest) s = (Except.error e, s2) := by
  intro cs1
  induction cs1 with
  | nil =>
    intro rest s s1 s2 l1 e h1 h2
    rw [goEList] at h1
    cases h1
    simpa using h2
  | cons c cs ih =>
    intro rest s s1 s2 l1 e h1 h2
    rw [goEList] at h1
    rcases hc : goE fs c s with ⟨rc, sc⟩
    simp only [hc] at h1
    cases rc with
    | error e0 => simp at h1
    | ok c1 =>
      rcases hcs : goEList fs cs sc with ⟨rcs, scs⟩
      simp only [hcs] at h1
      cases rcs with
      | error e0 => simp at h1
      | ok l2 =>
        simp only [Prod.mk.injEq, Except.ok.injEq] at h1
        obtain ⟨hl, hs⟩ := h1
        subst hl hs
        rw [List.cons_append, goEList, hc]
        simp only [ih hcs h2]

/-- C8: short-circuit of `bottom_up` under the failable effect.  If the
children before `c` are rewritten successfully, and traversing the subtree
`c` fails with error `e` leaving the transform's closure state at `s2`,
then the whole node's traversal returns exactly `(error e, s2)`: the error
is propagated unchanged, the later siblings `cs2` are never traversed, and
the caller's transform is never applied to the node (the closure state
records no further application).  Likewise, if all children succeed and the
transform itself fails at the reassembled node, that error is the overall
result. -/
theorem trexp_c8_short_circuit {α : Type u} {ε : Type v} {σ : Type w}
    (fs : RTree α → σ → Except ε (RTree α) × σ) :
    (∀ (lbl : α) (cs1 : List (RTree α)) (c : RTree α)
        (cs2 : List (RTree α)) (s s1 s2 : σ) (l1 : List (RTree α)) (e : ε),
      goEList fs cs1 s = (Except.ok l1, s1) →
      goE fs c s1 = (Except.error e, s2) →
      goE fs (RTree.node lbl (cs1 ++ c :: cs2)) s = (Except.error e, s2)) ∧
    (∀ (lbl : α) (cs : List (RTree α)) (s s1 s2 : σ)
        (l1 : List (RTree α)) (e : ε),
      goEList fs cs s = (Except.ok l1, s1) →
      fs (RTree.node lbl l1) s1 = (Except.error e, s2) →
      goE fs (RTree.node lbl cs) s = (Except.error e, s2)) := by
  constructor
  · intro lbl cs1 c cs2 s s1 s2 l1 e h1 h2
    have hlist : goEList fs (cs1 ++ c :: cs2) s = (Except.error e, s2) :=
      goEList_append_ok_error h1 (goEList_cons_error h2)
    rw [goE]
    simp only [hlist]
  · intro lbl cs s s1 s2 l1 e h1 h2
    rw [goE]
    simp only [h1]
    exact h2

/-- A concrete failable transform whose closure state counts applications:
it fails at the second node it is applied to. -/
def fsCount : RTree Nat → Nat → Except Nat (RTree Nat) × Nat :=
  fun t n => (if n = 1 then Except.error 9 else Except.ok t, n + 1)

theorem trexp_c8_witness :
    goE fsCount
      (RTree.node 0 [RTree.node 1 [], RTree.node 2 [], RTree.node 3 []])
      0 = (Except.error 9, 2) :=
  (trexp_c8_short_circuit fsCount).1 0 [RTree.node 1 []] (RTree.node 2 [])
    [RTree.node 3 []] 0 1 2 [RTree.node 1 []] 9 rfl rfl

/-- C9: post-order guarantee of `bottom_up`.  Running the traversal with a
transform that appends every node it is applied to onto a visit log shows:
the result is the purely recursive bottom-up rewrite `buSpec`, and the
visit log is exactly `postVisits` — all visits inside the children, in the
hook's declared left-to-right order, followed by exactly one visit of the
root whose children are already fully transformed.  Every transform
application therefore observes only fully finalized descendants, and the
root is transformed exactly once, after all of them. -/
theorem trexp_c9_post_order {α : Type u} (g : RTree α → RTree α)
    (t : RTree α) (s : List (RTree α)) :
    goId (fun t0 vis => (g t0, vis ++ [t0])) t s =
      (buSpec g t, s ++ postVisits g t) := by
  have key :=
    @rtree_list_ind α
      (fun t : RTree α => ∀ s,
        goId (fun t0 vis => (g t0, vis ++ [t0])) t s =
          (buSpec g t, s ++ postVisits g t))
      (fun l : List (RTree α) => ∀ s,
        goIdList (fun t0 vis => (g t0, vis ++ [t0])) l s =
          (buSpecList g l, s ++ postVisitsList g l))
      (fun lbl cs hQ s => by
        rw [goId]
        simp only [hQ s]
        simp [buSpec, postVisits, List.append_assoc])
      (fun s => by simp [goIdList, buSpecList, postVisitsList])
      (fun c cs hP hQ s => by
        rw [goIdList]
        simp only [hP s, hQ]
        simp [buSpecList, postVisitsList, List.append_assoc])
  exact key.1 t s
